import Mathlib

/-!
Verification of the IniFile/Section configuration-file codec
(a TypeScript rewrite of Dolphin's IniFile.cpp).

Strings are modelled as `List Char`; the JavaScript `Map` backing
`Section.values` is modelled as an insertion-ordered association list;
the line-oriented read/write streams of `load`/`save` are modelled as
`List Str` (one entry per physical line, without the trailing newline).
I/O failure of the underlying stream is modelled as truncation of the
line sequence; the logging side channel is not modelled (it carries no
data back into the codec).
-/

namespace Ini

abbrev Str := List Char

/-- The whitespace characters matched by the JavaScript regex class. -/
def wsChars : List Char :=
  [' ', '\t', '\n', '\r', Char.ofNat 11, Char.ofNat 12, Char.ofNat 0xa0,
   Char.ofNat 0x1680, Char.ofNat 0x2000, Char.ofNat 0x2001, Char.ofNat 0x2002,
   Char.ofNat 0x2003, Char.ofNat 0x2004, Char.ofNat 0x2005, Char.ofNat 0x2006,
   Char.ofNat 0x2007, Char.ofNat 0x2008, Char.ofNat 0x2009, Char.ofNat 0x200a,
   Char.ofNat 0x2028, Char.ofNat 0x2029, Char.ofNat 0x202f, Char.ofNat 0x205f,
   Char.ofNat 0x3000, Char.ofNat 0xfeff]

/-- Whitespace test used by the whitespace-stripping regex replace. -/
def isWs (c : Char) : Bool := wsChars.contains c

/-- Quote test used by the quote-stripping regex replace: double quote (34)
or single quote (39). -/
def isQuote (c : Char) : Bool := c == Char.ofNat 34 || c == Char.ofNat 39

/-- JavaScript `indexOf` on a list: index of the first element satisfying
`p`, or `none` in place of `-1`. -/
def findIndex {α : Type} (p : α → Bool) : List α → Option Nat
  | [] => none
  | a :: l => if p a then some 0 else (findIndex p l).map (· + 1)

/- A JavaScript `Map` from string to string, modelled as an
insertion-ordered association list (keys are unique in every state the
codec actually constructs). -/
namespace JsMap

/-- `Map.get`: value of the first matching entry. -/
def get : List (Str × Str) → Str → Option Str
  | [], _ => none
  | (k, v) :: rest, key => if k = key then some v else get rest key

/-- `Map.has`. -/
def has (m : List (Str × Str)) (key : Str) : Bool := (get m key).isSome

/-- `Map.set`: update the first matching entry in place, else append. -/
def set : List (Str × Str) → Str → Str → List (Str × Str)
  | [], key, val => [(key, val)]
  | (k, v) :: rest, key, val =>
      if k = key then (k, val) :: rest else (k, v) :: set rest key val

/-- `Map.delete`: remove the first matching entry; the Bool reports
whether an entry was removed. -/
def del : List (Str × Str) → Str → Bool × List (Str × Str)
  | [], _ => (false, [])
  | (k, v) :: rest, key =>
      if k = key then (true, rest)
      else ((del rest key).1, (k, v) :: (del rest key).2)

end JsMap

/-- The Section class: name, ordered key list, raw passthrough lines,
and the key/value map. -/
structure Section where
  name : Str
  keysOrder : List Str
  lines : List Str
  values : List (Str × Str)
deriving DecidableEq

namespace Section

/-- `Section.set(key, new_value)`: append the key to `keysOrder` when the
map does not yet have it, then upsert the map entry. -/
def set (s : Section) (key newValue : Str) : Section :=
  if JsMap.has s.values key then
    { s with values := JsMap.set s.values key newValue }
  else
    { s with keysOrder := s.keysOrder ++ [key],
             values := JsMap.set s.values key newValue }

/-- `Section.get(key, default_value)`. -/
def get (s : Section) (key defaultValue : Str) : Str :=
  match JsMap.get s.values key with
  | some v => v
  | none => defaultValue

/-- `Section.exists(key)` (renamed: `exists` is reserved in Lean). -/
def hasKey (s : Section) (key : Str) : Bool := (JsMap.get s.values key).isSome

/-- `keysOrder.splice(keysOrder.indexOf(key), 1)`: remove the element at
the first index of `key`; JavaScript `splice(-1, 1)` (index not found)
removes the last element. -/
def spliceOut (l : List Str) (key : Str) : List Str :=
  match findIndex (fun x => x == key) l with
  | some i => l.take i ++ l.drop (i + 1)
  | none => l.dropLast

/-- `Section.delete(key)`: delete from the map; on success also splice the
key out of `keysOrder`. Returns the success flag with the new state. -/
def delete (s : Section) (key : Str) : Bool × Section :=
  let r := JsMap.del s.values key
  if r.1 then
    (true, { s with values := r.2, keysOrder := spliceOut s.keysOrder key })
  else
    (false, { s with values := r.2 })

/-- `Section.setLines(lines)`: wholesale replacement of the raw lines. -/
def setLines (s : Section) (ls : List Str) : Section := { s with lines := ls }

/-- `Section.getLines(remove_comments)`: the raw lines with entries equal
to `"\n"` or `""` dropped; `remove_comments` has no effect. -/
def getLines (s : Section) (removeComments : Bool) : List Str :=
  let _ := removeComments
  s.lines.filter (fun line => decide (line ≠ ['\n'] ∧ line ≠ []))

end Section

/-- The IniFile class: the ordered list of sections. -/
structure IniFile where
  sections : List Section
deriving DecidableEq

namespace IniFile

/-- `parseLine`: `null/null` for an empty or `#`-initial line; otherwise
split at the first `=` (whitespace is stripped from the key, whitespace
and quotes from the value); with no `=` the pair is `("", "")`. -/
def parseLine (line : Str) : Option (Str × Str) :=
  if line = [] ∨ line.head? = some '#' then none
  else
    match findIndex (fun c => c == '=') line with
    | some i =>
        some ((line.take i).filter (fun c => !isWs c),
              (line.drop (i + 1)).filter (fun c => !isWs c && !isQuote c))
    | none => some ([], [])

/-- `getSection(sectionName)`: first section with that exact name. -/
def getSection (d : IniFile) (sectionName : Str) : Option Section :=
  d.sections.find? (fun s => decide (s.name = sectionName))

/-- `new Section(name)`: a fresh empty section. -/
def emptySection (n : Str) : Section := ⟨n, [], [], []⟩

/-- `getOrCreateSection(section_name)`: the document after the call (the
returned section object is the first one with that name in the result). -/
def getOrCreateSection (d : IniFile) (sectionName : Str) : IniFile :=
  match d.getSection sectionName with
  | some _ => d
  | none => ⟨d.sections ++ [emptySection sectionName]⟩

/-- Mutation through a live section reference: apply `f` to the first
section with the given name (section names are unique in every document
the API constructs, and references are obtained by first-match lookup). -/
def updateFirst (f : Section → Section) (n : Str) : List Section → List Section
  | [] => []
  | s :: rest => if s.name = n then f s :: rest else s :: updateFirst f n rest

/-- `deleteSection(section_name)`: remove the first section with that
name if present; the Bool reports whether a removal occurred. -/
def deleteSection (d : IniFile) (sectionName : Str) : Bool × IniFile :=
  match d.getSection sectionName with
  | none => (false, d)
  | some _ => (true, ⟨removeFirst d.sections sectionName⟩)
where
  removeFirst : List Section → Str → List Section
    | [], _ => []
    | s :: rest, n => if s.name = n then rest else s :: removeFirst rest n

/-- `exists(section_name)` (renamed: `exists` is reserved in Lean). -/
def hasSection (d : IniFile) (sectionName : Str) : Bool :=
  (d.getSection sectionName).isSome

/-- `setLines(section_name, lines)`: get-or-create, then replace the raw
lines of that section. -/
def setLines (d : IniFile) (sectionName : Str) (ls : List Str) : IniFile :=
  let d' := d.getOrCreateSection sectionName
  ⟨updateFirst (fun s => s.setLines ls) sectionName d'.sections⟩

/-- `deleteKey(section_name, key)`: false when the section is absent,
else delegate to `Section.delete` on the (first-match) section. -/
def deleteKey (d : IniFile) (sectionName key : Str) : Bool × IniFile :=
  match d.getSection sectionName with
  | none => (false, d)
  | some s =>
      ((s.delete key).1,
       ⟨updateFirst (fun t => (t.delete key).2) sectionName d.sections⟩)

/-- `getKeys(section_name)`: the section's `keysOrder`, or `[]`. -/
def getKeys (d : IniFile) (sectionName : Str) : List Str :=
  match d.getSection sectionName with
  | none => []
  | some s => s.keysOrder

/-- `getLines(section_name, remove_comments)`. -/
def getLines (d : IniFile) (sectionName : Str) (removeComments : Bool) :
    List Str :=
  match d.getSection sectionName with
  | none => []
  | some s => s.getLines removeComments

/-- The literal three-character byte-order-mark prefix tested on the
first line of `load`. -/
def bom : Str := [Char.ofNat 0xEF, Char.ofNat 0xBB, Char.ofNat 0xBF]

/-- The first-line BOM strip of `load`. -/
def bomStrip (first : Bool) (line : Str) : Str :=
  if first ∧ line.take 3 = bom then line.drop 3 else line

/-- One iteration of `load`'s line loop. State: the document, the current
section (by name: the live reference is the first section with that
name), and the first-line flag. -/
def loadStep (st : IniFile × Option Str × Bool) (rawLine : Str) :
    IniFile × Option Str × Bool :=
  match st with
  | (d, cur, first) =>
    let line := bomStrip first rawLine
    if line.head? = some '[' then
      match findIndex (fun c => c == ']') line with
      | some endpos =>
          let sub := (line.take endpos).drop 1
          (d.getOrCreateSection sub, some sub, false)
      | none => (d, cur, false)
    else
      match cur with
      | none => (d, cur, false)
      | some n =>
        match parseLine line with
        | none =>
            (⟨updateFirst (fun s => { s with lines := s.lines ++ [line] })
                n d.sections⟩, cur, false)
        | some kv =>
            if line ≠ [] ∧ (line.head? = some '$' ∨ line.head? = some '+' ∨
                line.head? = some '*') then
              (⟨updateFirst (fun s => { s with lines := s.lines ++ [line] })
                  n d.sections⟩, cur, false)
            else
              (⟨updateFirst (fun s => s.set kv.1 kv.2) n d.sections⟩,
               cur, false)

/-- The whole line loop of `load`. -/
def processLines (st : IniFile × Option Str × Bool) (input : List Str) :
    IniFile × Option Str × Bool :=
  input.foldl loadStep st

/-- `load(fileName, keep_current_data)`: clear the sections when
`keepCurrentData` is false, then run the line loop from no current
section with the first-line flag set; always reports success. -/
def load (d : IniFile) (input : List Str) (keepCurrentData : Bool) :
    IniFile × Bool :=
  let d0 : IniFile := if keepCurrentData then d else ⟨[]⟩
  ((processLines (d0, none, true) input).1, true)

/-- The string interpolated for a key whose map entry is missing:
JavaScript renders `undefined`. -/
def undefinedStr : Str := ['u', 'n', 'd', 'e', 'f', 'i', 'n', 'e', 'd']

/-- The per-section body of `save`, one entry per `write` call (without
the trailing newline the write appends): the header, then either the raw
lines (when there are no keys) or the `key=value` lines, then one blank
separator entry. The byte stream actually written is `saveText`; a
reader splits it back into physical lines with `splitLines`. -/
def saveSection (s : Section) : List Str :=
  ('[' :: s.name ++ [']']) ::
    (if s.keysOrder = [] then s.lines ++ [[]]
     else s.keysOrder.map
        (fun k => k ++ '=' :: (JsMap.get s.values k).getD undefinedStr)
        ++ [[]])

/-- `save(filePath)`: the emitted write sequence, with the success flag
(always true). -/
def save (d : IniFile) : List Str × Bool :=
  ((d.sections.map saveSection).flatten, true)

/-- The byte stream `save` writes: each chunk of `saveSection` is one
`write` of the chunk followed by a newline character. -/
def saveText (d : IniFile) : Str :=
  (((d.sections.map saveSection).flatten).map (fun l => l ++ ['\n'])).flatten

/-- The line splitting the loader's readline performs on a byte stream:
`\r\n`, `\n` and `\r` each terminate a line, and a trailing terminator
produces no extra empty line. -/
def splitLines : Str → List Str
  | [] => []
  | '\r' :: '\n' :: rest => [] :: splitLines rest
  | '\r' :: rest => [] :: splitLines rest
  | '\n' :: rest => [] :: splitLines rest
  | c :: rest =>
      match splitLines rest with
      | [] => [[c]]
      | l :: ls => (c :: l) :: ls

end IniFile

/-- The Section representation invariant: `keysOrder` holds no
duplicates, the map holds no duplicate keys, and the domain of the map
is exactly the set of entries of `keysOrder`. -/
def SectionInv (s : Section) : Prop :=
  s.keysOrder.Nodup ∧ (s.values.map Prod.fst).Nodup ∧
    ∀ k, k ∈ s.values.map Prod.fst ↔ k ∈ s.keysOrder

/-- Every section of the document satisfies the representation
invariant. -/
def DocInv (d : IniFile) : Prop := ∀ s ∈ d.sections, SectionInv s

/-- Sections reachable through the public mutation API: fresh sections
plus `set`, `delete` and `setLines`. -/
inductive Reachable : Section → Prop
  | mkEmpty (n : Str) : Reachable (IniFile.emptySection n)
  | setStep (s : Section) (k v : Str) : Reachable s → Reachable (s.set k v)
  | delStep (s : Section) (k : Str) : Reachable s → Reachable (s.delete k).2
  | setLinesStep (s : Section) (ls : List Str) : Reachable s →
      Reachable (s.setLines ls)

/-- A key that survives the save/load cycle unchanged: no whitespace, no
`=`, and it does not put the emitted line into the header, comment or
raw passthrough class. -/
@[reducible] def KeyWF (k : Str) : Prop :=
  (∀ c ∈ k, isWs c = false) ∧ '=' ∉ k ∧
    k.head? ≠ some '[' ∧ k.head? ≠ some '#' ∧ k.head? ≠ some '$' ∧
    k.head? ≠ some '+' ∧ k.head? ≠ some '*'

/-- A value that survives the save/load cycle unchanged: no whitespace
and no quote characters. -/
@[reducible] def ValWF (v : Str) : Prop :=
  ∀ c ∈ v, isWs c = false ∧ isQuote c = false

/-- A section whose saved form reparses to the same keys and values:
the representation invariant, at least one key, no raw lines, a header
name that reparses (no `]` and no line terminator, so the emitted header
write stays one physical line), and well-formed keys and values. -/
def SectionWF (s : Section) : Prop :=
  SectionInv s ∧ s.keysOrder ≠ [] ∧ s.lines = [] ∧ (']' : Char) ∉ s.name ∧
    ('\n' : Char) ∉ s.name ∧ ('\r' : Char) ∉ s.name ∧
    (∀ k ∈ s.keysOrder, KeyWF k) ∧
    ∀ k v, JsMap.get s.values k = some v → ValWF v

/-- A document of well-formed sections with pairwise distinct names. -/
def DocWF (d : IniFile) : Prop :=
  (d.sections.map Section.name).Nodup ∧ ∀ s ∈ d.sections, SectionWF s

/-- The name a line contributes as an effective section header during
`load`, if any. -/
def headerNameOf (line : Str) : Option Str :=
  if line.head? = some '[' then
    match findIndex (fun c => c == ']') line with
    | some endpos => some ((line.take endpos).drop 1)
    | none => none
  else none

/-- The section names mentioned by an input, in order of occurrence; the
Bool is the first-line flag of the BOM strip. -/
def mentionedAux : Bool → List Str → List Str
  | _, [] => []
  | first, line :: rest =>
    match headerNameOf (IniFile.bomStrip first line) with
    | some n => n :: mentionedAux false rest
    | none => mentionedAux false rest

/-- The section names mentioned by an input, in order of occurrence. -/
def mentionedNames (input : List Str) : List Str := mentionedAux true input

/-- The section that reloading a saved key/value-only section produces:
same name and key order, the values rebuilt from the emitted lines in
key order, and the blank separator line absorbed as one raw line. -/
def rebuilt (s : Section) : Section :=
  ⟨s.name, s.keysOrder, [[]],
   s.keysOrder.map
     (fun k => (k, (JsMap.get s.values k).getD IniFile.undefinedStr))⟩

/-! Lemmas about the JavaScript map model. -/

namespace JsMap

theorem get_eq_none_iff (m : List (Str × Str)) (k : Str) :
    get m k = none ↔ k ∉ m.map Prod.fst := by
  induction m with
  | nil => simp [get]
  | cons p rest ih =>
    obtain ⟨a, b⟩ := p
    by_cases h : a = k
    · subst h
      simp [get]
    · simp only [get, if_neg h, List.map_cons, List.mem_cons, not_or]
      rw [ih]
      constructor
      · intro hn
        exact ⟨fun hk => h hk.symm, hn⟩
      · intro hn
        exact hn.2

theorem isSome_get_iff (m : List (Str × Str)) (k : Str) :
    (get m k).isSome ↔ k ∈ m.map Prod.fst := by
  rw [← Option.ne_none_iff_isSome, Ne, get_eq_none_iff, not_not]

theorem get_set_self (m : List (Str × Str)) (k v : Str) :
    get (set m k v) k = some v := by
  induction m with
  | nil => simp [get, set]
  | cons p rest ih =>
    obtain ⟨a, b⟩ := p
    by_cases h : a = k
    · simp [set, h, get]
    · simp [set, h, get, ih]

theorem get_set_ne (m : List (Str × Str)) (k v k' : Str) (h : k' ≠ k) :
    get (set m k v) k' = get m k' := by
  have h' : ¬ k = k' := fun hk => h hk.symm
  induction m with
  | nil => simp [get, set, h']
  | cons p rest ih =>
    obtain ⟨a, b⟩ := p
    by_cases ha : a = k
    · subst ha
      simp [set, get, h']
    · by_cases ha' : a = k'
      · simp [set, ha, get, ha', h]
      · simp [set, ha, get, ha', ih]

theorem set_of_absent (m : List (Str × Str)) (k v : Str)
    (h : k ∉ m.map Prod.fst) : set m k v = m ++ [(k, v)] := by
  induction m with
  | nil => simp [set]
  | cons p rest ih =>
    obtain ⟨a, b⟩ := p
    simp only [List.map_cons, List.mem_cons, not_or] at h
    have ha : ¬ a = k := fun hk => h.1 hk.symm
    simp [set, ha, ih h.2]

theorem map_fst_set_of_mem (m : List (Str × Str)) (k v : Str)
    (h : k ∈ m.map Prod.fst) : (set m k v).map Prod.fst = m.map Prod.fst := by
  induction m with
  | nil => simp at h
  | cons p rest ih =>
    obtain ⟨a, b⟩ := p
    by_cases ha : a = k
    · simp [set, ha]
    · have hk : k ∈ List.map Prod.fst rest := by
        simp only [List.map_cons, List.mem_cons] at h
        rcases h with h' | h'
        · exact absurd h'.symm ha
        · exact h'
      simp [set, ha, ih hk]

theorem del_fst_iff (m : List (Str × Str)) (k : Str) :
    (del m k).1 = true ↔ k ∈ m.map Prod.fst := by
  induction m with
  | nil => simp [del]
  | cons p rest ih =>
    obtain ⟨a, b⟩ := p
    by_cases h : a = k
    · simp [del, h]
    · simp only [del, if_neg h, List.map_cons, List.mem_cons]
      rw [ih]
      constructor
      · exact fun hm => Or.inr hm
      · rintro (rfl | hm)
        · exact absurd rfl h
        · exact hm

theorem del_of_absent (m : List (Str × Str)) (k : Str)
    (h : k ∉ m.map Prod.fst) : del m k = (false, m) := by
  induction m with
  | nil => simp [del]
  | cons p rest ih =>
    obtain ⟨a, b⟩ := p
    simp only [List.map_cons, List.mem_cons, not_or] at h
    have ha : ¬ a = k := fun hk => h.1 hk.symm
    simp [del, ha, ih h.2]

theorem get_del (m : List (Str × Str)) (k : Str)
    (hnd : (m.map Prod.fst).Nodup) (k' : Str) :
    get (del m k).2 k' = if k' = k then none else get m k' := by
  induction m with
  | nil => simp [del, get]
  | cons p rest ih =>
    obtain ⟨a, b⟩ := p
    simp only [List.map_cons, List.nodup_cons] at hnd
    by_cases h : a = k
    · subst h
      simp only [del, if_pos rfl]
      by_cases h' : k' = a
      · rw [if_pos h', h']
        exact (get_eq_none_iff rest a).mpr hnd.1
      · have ha' : ¬ a = k' := fun hk => h' hk.symm
        simp [get, h', ha']
    · by_cases h' : a = k'
      · have hk : ¬ k' = k := fun hc => h (h'.trans hc)
        simp [del, h, get, h', hk]
      · simp [del, h, get, h', ih hnd.2]

theorem map_fst_del_sublist (m : List (Str × Str)) (k : Str) :
    ((del m k).2.map Prod.fst).Sublist (m.map Prod.fst) := by
  induction m with
  | nil => simp [del]
  | cons p rest ih =>
    obtain ⟨a, b⟩ := p
    by_cases h : a = k
    · simp only [del, if_pos h, List.map_cons]
      exact List.sublist_cons_self a _
    · simp only [del, if_neg h, List.map_cons]
      exact ih.cons₂ a

theorem mem_map_fst_del (m : List (Str × Str)) (k : Str)
    (hnd : (m.map Prod.fst).Nodup) (x : Str) :
    x ∈ (del m k).2.map Prod.fst ↔ x ∈ m.map Prod.fst ∧ x ≠ k := by
  have hx1 : x ∈ (del m k).2.map Prod.fst ↔ ¬ get (del m k).2 x = none := by
    rw [get_eq_none_iff, not_not]
  have hx2 : x ∈ m.map Prod.fst ↔ ¬ get m x = none := by
    rw [get_eq_none_iff, not_not]
  rw [hx1, get_del m k hnd x]
  by_cases h : x = k
  · simp [h]
  · rw [if_neg h, ← hx2]
    simp [h]

theorem get_append_of_none (m₁ m₂ : List (Str × Str)) (k : Str)
    (h : get m₁ k = none) : get (m₁ ++ m₂) k = get m₂ k := by
  induction m₁ with
  | nil => simp
  | cons p rest ih =>
    obtain ⟨a, b⟩ := p
    by_cases ha : a = k
    · simp [get, ha] at h
    · simp only [get, if_neg ha] at h
      simp [get, ha, ih h]

end JsMap

/-! Lemmas about `findIndex`. -/

theorem findIndex_eq_none_iff {α : Type} (p : α → Bool) (l : List α) :
    findIndex p l = none ↔ ∀ a ∈ l, p a = false := by
  induction l with
  | nil => simp [findIndex]
  | cons a l ih =>
    cases hp : p a with
    | true => simp [findIndex, hp]
    | false => simp [findIndex, hp, ih]

theorem findIndex_append_first {α : Type} (p : α → Bool) (l₁ : List α)
    (b : α) (l₂ : List α) (h₁ : ∀ a ∈ l₁, p a = false) (hb : p b = true) :
    findIndex p (l₁ ++ b :: l₂) = some l₁.length := by
  induction l₁ with
  | nil => simp [findIndex, hb]
  | cons a l ih =>
    simp [findIndex, h₁ a (List.mem_cons_self a l),
      ih (fun x hx => h₁ x (List.mem_cons_of_mem a hx))]

/-! Lemmas about `parseLine` and the header classification. -/

namespace IniFile

theorem parseLine_eq_none_iff (line : Str) :
    parseLine line = none ↔ line = [] ∨ line.head? = some '#' := by
  by_cases h : line = [] ∨ line.head? = some '#'
  · simp [parseLine, h]
  · simp only [parseLine, if_neg h]
    constructor
    · intro hcon
      cases hf : findIndex (fun c => c == '=') line <;>
        rw [hf] at hcon <;> simp at hcon
    · intro hcon
      exact absurd hcon h

theorem parseLine_kv (k v : Str) (hk : KeyWF k) (hv : ValWF v) :
    parseLine (k ++ '=' :: v) = some (k, v) := by
  obtain ⟨hkw, hke, hk1, hk2, hk3, hk4, hk5⟩ := hk
  have hne : ¬(k ++ '=' :: v = [] ∨ (k ++ '=' :: v).head? = some '#') := by
    rintro (hc | hc)
    · rcases k with _ | ⟨c, k'⟩ <;> simp at hc
    · rcases k with _ | ⟨c, k'⟩
      · simp at hc
      · simp only [List.cons_append, List.head?_cons, Option.some.injEq] at hc
        exact hk2 (by rw [List.head?_cons, hc])
  have hfi : findIndex (fun c => c == '=') (k ++ '=' :: v) = some k.length := by
    refine findIndex_append_first _ k '=' v (fun a ha => ?_) (by simp)
    simp only [beq_eq_false_iff_ne, ne_eq]
    exact fun hc => hke (hc ▸ ha)
  have htake : (k ++ '=' :: v).take k.length = k := List.take_left k _
  have hdrop : (k ++ '=' :: v).drop (k.length + 1) = v := by
    have hsplit : k ++ '=' :: v = (k ++ ['=']) ++ v := by simp
    rw [hsplit]
    exact List.drop_left' (by simp)
  simp only [parseLine, if_neg hne, hfi, htake, hdrop]
  rw [List.filter_eq_self.mpr (fun a ha => by simp [hkw a ha]),
    List.filter_eq_self.mpr (fun a ha => by simp [(hv a ha).1, (hv a ha).2])]

theorem findIndex_header (n : Str) (h : (']' : Char) ∉ n) :
    findIndex (fun c => c == ']') ('[' :: n ++ [']']) = some (n.length + 1) := by
  have hall : ∀ a ∈ '[' :: n, (a == ']') = false := by
    intro a ha
    rcases List.mem_cons.mp ha with ha | ha
    · simp [ha]
    · simp only [beq_eq_false_iff_ne, ne_eq]
      exact fun hc => h (hc ▸ ha)
  have := findIndex_append_first (fun c => c == ']') ('[' :: n) ']' [] hall
    (by simp)
  simpa using this

end IniFile

/-! Lemmas about Section operations. -/

namespace Section

theorem set_name (s : Section) (k v : Str) : (s.set k v).name = s.name := by
  by_cases h : JsMap.has s.values k <;> simp [set, h]

theorem set_lines (s : Section) (k v : Str) : (s.set k v).lines = s.lines := by
  by_cases h : JsMap.has s.values k <;> simp [set, h]

theorem delete_name (s : Section) (k : Str) : ((s.delete k).2).name = s.name := by
  cases hr : (JsMap.del s.values k).1 <;> simp [delete, hr]

theorem delete_lines (s : Section) (k : Str) :
    ((s.delete k).2).lines = s.lines := by
  cases hr : (JsMap.del s.values k).1 <;> simp [delete, hr]

theorem setLines_name (s : Section) (ls : List Str) :
    (s.setLines ls).name = s.name := rfl

theorem set_keysOrder_of_has (s : Section) (k v : Str)
    (h : JsMap.has s.values k = true) : (s.set k v).keysOrder = s.keysOrder := by
  simp [set, h]

theorem set_keysOrder_of_not_has (s : Section) (k v : Str)
    (h : JsMap.has s.values k = false) :
    (s.set k v).keysOrder = s.keysOrder ++ [k] := by
  simp [set, h]

theorem set_values (s : Section) (k v : Str) :
    (s.set k v).values = JsMap.set s.values k v := by
  by_cases h : JsMap.has s.values k <;> simp [set, h]

theorem delete_eq_of_del_true (s : Section) (k : Str)
    (hr : (JsMap.del s.values k).1 = true) :
    s.delete k =
      (true, ⟨s.name, spliceOut s.keysOrder k, s.lines,
        (JsMap.del s.values k).2⟩) := by
  simp [delete, hr]

theorem delete_eq_of_del_false (s : Section) (k : Str)
    (hr : (JsMap.del s.values k).1 = false) :
    s.delete k = (false, ⟨s.name, s.keysOrder, s.lines,
      (JsMap.del s.values k).2⟩) := by
  simp [delete, hr]

theorem spliceOut_of_mem (l : List Str) (key : Str) (hnd : l.Nodup)
    (h : key ∈ l) : spliceOut l key = l.filter (fun x => !(x == key)) := by
  induction l with
  | nil => simp at h
  | cons a l ih =>
    simp only [List.nodup_cons] at hnd
    by_cases ha : a = key
    · subst ha
      have hfe : l.filter (fun x => !(x == a)) = l := by
        refine List.filter_eq_self.mpr (fun x hx => ?_)
        simp only [Bool.not_eq_eq_eq_not, Bool.not_true, beq_eq_false_iff_ne,
          ne_eq]
        exact fun hc => hnd.1 (hc ▸ hx)
      simp [spliceOut, findIndex, hfe]
    · have hl : key ∈ l := by
        rcases List.mem_cons.mp h with hc | hc
        · exact absurd hc.symm ha
        · exact hc
      have := ih hnd.2 hl
      cases hf : findIndex (fun x => x == key) l with
      | none =>
          rw [findIndex_eq_none_iff] at hf
          have := hf key hl
          simp at this
      | some i =>
          simp only [spliceOut, hf] at this
          simp [spliceOut, findIndex, ha, hf, this]

end Section

/-! Preservation of the Section invariant. -/

theorem sectionInv_empty (n : Str) : SectionInv (IniFile.emptySection n) := by
  refine ⟨List.nodup_nil, List.nodup_nil, fun k => ?_⟩
  simp [IniFile.emptySection]

theorem sectionInv_set (s : Section) (k v : Str) (h : SectionInv s) :
    SectionInv (s.set k v) := by
  obtain ⟨h1, h2, h3⟩ := h
  by_cases hh : JsMap.has s.values k
  · have hm : k ∈ s.values.map Prod.fst := (JsMap.isSome_get_iff _ _).mp hh
    refine ⟨?_, ?_, ?_⟩
    · rw [Section.set_keysOrder_of_has s k v hh]
      exact h1
    · rw [Section.set_values, JsMap.map_fst_set_of_mem _ _ _ hm]
      exact h2
    · intro x
      rw [Section.set_keysOrder_of_has s k v hh, Section.set_values,
        JsMap.map_fst_set_of_mem _ _ _ hm]
      exact h3 x
  · have hh' : JsMap.has s.values k = false := by
      simpa using hh
    have hm : k ∉ s.values.map Prod.fst := by
      intro hc
      exact hh ((JsMap.isSome_get_iff _ _).mpr hc)
    have hko : k ∉ s.keysOrder := fun hc => hm ((h3 k).mpr hc)
    refine ⟨?_, ?_, ?_⟩
    · rw [Section.set_keysOrder_of_not_has s k v hh']
      simp [List.nodup_append, h1, hko]
    · rw [Section.set_values, JsMap.set_of_absent _ _ _ hm]
      simp [List.nodup_append, h2, hm]
    · intro x
      rw [Section.set_keysOrder_of_not_has s k v hh', Section.set_values,
        JsMap.set_of_absent _ _ _ hm]
      simp only [List.map_append, List.map_cons, List.map_nil,
        List.mem_append, List.mem_cons, List.not_mem_nil, or_false]
      rw [h3 x]

theorem sectionInv_delete (s : Section) (k : Str) (h : SectionInv s) :
    SectionInv (s.delete k).2 := by
  obtain ⟨h1, h2, h3⟩ := h
  cases hr : (JsMap.del s.values k).1 with
  | false =>
      have hm : k ∉ s.values.map Prod.fst := by
        intro hc
        have hcon := (JsMap.del_fst_iff s.values k).mpr hc
        rw [hr] at hcon
        exact Bool.noConfusion hcon
      have hdel := JsMap.del_of_absent s.values k hm
      rw [Section.delete_eq_of_del_false s k hr]
      have hv2 : (JsMap.del s.values k).2 = s.values := by rw [hdel]
      rw [hv2]
      exact ⟨h1, h2, h3⟩
  | true =>
      have hm : k ∈ s.values.map Prod.fst := (JsMap.del_fst_iff _ _).mp hr
      have hko : k ∈ s.keysOrder := (h3 k).mp hm
      have hsplice := Section.spliceOut_of_mem s.keysOrder k h1 hko
      rw [Section.delete_eq_of_del_true s k hr]
      refine ⟨?_, ?_, ?_⟩
      · simp only [hsplice]
        exact h1.filter _
      · exact h2.sublist (JsMap.map_fst_del_sublist s.values k)
      · intro x
        simp only [hsplice]
        rw [JsMap.mem_map_fst_del s.values k h2 x, h3 x]
        constructor
        · intro hx
          exact List.mem_filter.mpr ⟨hx.1, by simp [hx.2]⟩
        · intro hx
          obtain ⟨hx1, hx2⟩ := List.mem_filter.mp hx
          refine ⟨hx1, ?_⟩
          simpa using hx2

theorem sectionInv_setLines (s : Section) (ls : List Str) (h : SectionInv s) :
    SectionInv (s.setLines ls) := h

/-! Structural lemmas about the document operations. -/

namespace IniFile

theorem getSection_eq_none_iff (d : IniFile) (n : Str) :
    getSection d n = none ↔ n ∉ d.sections.map Section.name := by
  rw [getSection, List.find?_eq_none]
  constructor
  · intro h hc
    obtain ⟨s, hs, hn⟩ := List.mem_map.mp hc
    have := h s hs
    simp only [decide_eq_true_eq] at this
    exact this hn
  · intro h s hs
    simp only [decide_eq_true_eq]
    intro hn
    exact h (List.mem_map.mpr ⟨s, hs, hn⟩)

theorem getSection_of_nodup (l : List Section) (s : Section)
    (hnd : (l.map Section.name).Nodup) (hs : s ∈ l) :
    getSection ⟨l⟩ s.name = some s := by
  induction l with
  | nil => simp at hs
  | cons t rest ih =>
    simp only [List.map_cons, List.nodup_cons] at hnd
    rcases List.mem_cons.mp hs with rfl | hs'
    · show (s :: rest).find? _ = some s
      rw [List.find?_cons_of_pos _ (by simp)]
    · have hne : ¬ t.name = s.name := by
        intro hc
        exact hnd.1 (hc ▸ List.mem_map.mpr ⟨s, hs', rfl⟩)
      show (t :: rest).find? _ = some s
      rw [List.find?_cons_of_neg _ (by simpa using hne)]
      exact ih hnd.2 hs'

theorem updateFirst_of_not_mem (f : Section → Section) (n : Str)
    (l : List Section) (h : n ∉ l.map Section.name) :
    updateFirst f n l = l := by
  induction l with
  | nil => rfl
  | cons t rest ih =>
    simp only [List.map_cons, List.mem_cons, not_or] at h
    have ht : ¬ t.name = n := fun hc => h.1 hc.symm
    simp [updateFirst, ht, ih h.2]

theorem updateFirst_append_of_not_mem (f : Section → Section)
    (d₀ : List Section) (t : Section) (h : t.name ∉ d₀.map Section.name) :
    updateFirst f t.name (d₀ ++ [t]) = d₀ ++ [f t] := by
  induction d₀ with
  | nil => simp [updateFirst]
  | cons u rest ih =>
    simp only [List.map_cons, List.mem_cons, not_or] at h
    have hu : ¬ u.name = t.name := fun hc => h.1 hc.symm
    simp [updateFirst, hu, ih h.2]

theorem updateFirst_append_of_name (f : Section → Section)
    (d₀ : List Section) (t : Section) (n : Str) (htn : t.name = n)
    (h : n ∉ d₀.map Section.name) :
    updateFirst f n (d₀ ++ [t]) = d₀ ++ [f t] := by
  subst htn
  exact updateFirst_append_of_not_mem f d₀ t h

theorem map_name_updateFirst (f : Section → Section) (n : Str)
    (l : List Section) (hf : ∀ s, (f s).name = s.name) :
    (updateFirst f n l).map Section.name = l.map Section.name := by
  induction l with
  | nil => rfl
  | cons t rest ih =>
    by_cases ht : t.name = n
    · simp [updateFirst, ht, hf t]
    · simp [updateFirst, ht, ih]

theorem mem_updateFirst_of_ne (f : Section → Section) (n : Str)
    (l : List Section) (s : Section) (hs : s ∈ l) (hne : s.name ≠ n) :
    s ∈ updateFirst f n l := by
  induction l with
  | nil => simp at hs
  | cons t rest ih =>
    rcases List.mem_cons.mp hs with rfl | hs'
    · simp [updateFirst, hne]
    · by_cases ht : t.name = n
      · simp [updateFirst, ht, List.mem_cons, hs']
      · simp only [updateFirst, if_neg ht, List.mem_cons]
        exact Or.inr (ih hs')

theorem sectionInv_updateFirst (f : Section → Section) (n : Str)
    (l : List Section) (hf : ∀ s, SectionInv s → SectionInv (f s))
    (h : ∀ s ∈ l, SectionInv s) : ∀ s ∈ updateFirst f n l, SectionInv s := by
  induction l with
  | nil => simp [updateFirst]
  | cons t rest ih =>
    intro s hs
    by_cases ht : t.name = n
    · simp only [updateFirst, if_pos ht, List.mem_cons] at hs
      rcases hs with rfl | hs'
      · exact hf t (h t (List.mem_cons_self t rest))
      · exact h s (List.mem_cons_of_mem t hs')
    · simp only [updateFirst, if_neg ht, List.mem_cons] at hs
      rcases hs with rfl | hs'
      · exact h s (List.mem_cons_self s rest)
      · exact ih (fun u hu => h u (List.mem_cons_of_mem t hu)) s hs'

theorem getSection_updateFirst (f : Section → Section) (n : Str)
    (l : List Section) (hf : ∀ s, (f s).name = s.name) :
    getSection ⟨updateFirst f n l⟩ n = (getSection ⟨l⟩ n).map f := by
  induction l with
  | nil => rfl
  | cons t rest ih =>
    by_cases ht : t.name = n
    · simp only [updateFirst, if_pos ht]
      show ((f t) :: rest).find? _ = ((t :: rest).find? _).map f
      rw [List.find?_cons_of_pos _ (by simp [hf t, ht]),
        List.find?_cons_of_pos _ (by simp [ht])]
      rfl
    · simp only [updateFirst, if_neg ht]
      show ((t :: updateFirst f n rest).find? _) = ((t :: rest).find? _).map f
      rw [List.find?_cons_of_neg _ (by simpa using ht),
        List.find?_cons_of_neg _ (by simpa using ht)]
      exact ih

theorem getOrCreateSection_of_none (d : IniFile) (n : Str)
    (h : getSection d n = none) :
    getOrCreateSection d n = ⟨d.sections ++ [emptySection n]⟩ := by
  simp [getOrCreateSection, h]

theorem getOrCreateSection_of_some (d : IniFile) (n : Str) (t : Section)
    (h : getSection d n = some t) : getOrCreateSection d n = d := by
  simp [getOrCreateSection, h]

theorem mem_getOrCreateSection (d : IniFile) (n : Str) (s : Section)
    (hs : s ∈ d.sections) : s ∈ (getOrCreateSection d n).sections := by
  cases h : getSection d n with
  | none => simp [getOrCreateSection_of_none d n h, hs]
  | some t => simp [getOrCreateSection_of_some d n t h, hs]

theorem getSection_getOrCreateSection (d : IniFile) (n : Str) :
    ∃ t, getSection (getOrCreateSection d n) n = some t := by
  cases h : getSection d n with
  | none =>
      refine ⟨emptySection n, ?_⟩
      rw [getOrCreateSection_of_none d n h]
      show (d.sections ++ [emptySection n]).find? _ = some (emptySection n)
      rw [List.find?_append]
      have h' : List.find? (fun s => decide (s.name = n)) d.sections = none := h
      rw [h']
      simp [emptySection]
  | some t =>
      exact ⟨t, by rw [getOrCreateSection_of_some d n t h, h]⟩

theorem map_name_getOrCreateSection (d : IniFile) (n : Str) :
    (getOrCreateSection d n).sections.map Section.name =
      d.sections.map Section.name ∨
    (getOrCreateSection d n).sections.map Section.name =
      d.sections.map Section.name ++ [n] := by
  cases h : getSection d n with
  | none =>
      right
      rw [getOrCreateSection_of_none d n h]
      simp [emptySection]
  | some t => left; rw [getOrCreateSection_of_some d n t h]

/-! Lemmas about single load steps. -/

theorem bomStrip_false (line : Str) : bomStrip false line = line := by
  simp [bomStrip]

theorem bomStrip_head_ne (b : Bool) (line : Str) (c : Char)
    (hc : line.head? = some c) (hne : c ≠ Char.ofNat 0xEF) :
    bomStrip b line = line := by
  have hb : ¬ (b = true ∧ line.take 3 = bom) := by
    rintro ⟨-, h3⟩
    rcases line with _ | ⟨a, rest⟩
    · rw [bom] at h3
      simp at h3
    · have hac : a = c := by simpa using hc
      have h4 : (a :: rest).take 3 = a :: rest.take 2 := rfl
      rw [h4, bom] at h3
      injection h3 with h5 h6
      exact hne (hac ▸ h5)
  simp only [bomStrip]
  rw [if_neg hb]

theorem processLines_nil (st : IniFile × Option Str × Bool) :
    processLines st [] = st := rfl

theorem processLines_cons (st : IniFile × Option Str × Bool) (line : Str)
    (rest : List Str) :
    processLines st (line :: rest) = processLines (loadStep st line) rest :=
  rfl

theorem processLines_append (st : IniFile × Option Str × Bool)
    (l₁ l₂ : List Str) :
    processLines st (l₁ ++ l₂) = processLines (processLines st l₁) l₂ :=
  List.foldl_append loadStep st l₁ l₂

theorem loadStep_header (d : IniFile) (cur : Option Str) (b : Bool) (n : Str)
    (h : (']' : Char) ∉ n) :
    loadStep (d, cur, b) ('[' :: n ++ [']']) =
      (d.getOrCreateSection n, some n, false) := by
  have hstrip : bomStrip b ('[' :: n ++ [']']) = '[' :: n ++ [']'] :=
    bomStrip_head_ne b _ '[' (by simp) (by decide)
  have hhead : ('[' :: n ++ [']']).head? = some '[' := by simp
  have hfi := findIndex_header n h
  have htake : ('[' :: n ++ [']']).take (n.length + 1) = '[' :: n := by
    have hsplit : '[' :: n ++ [']'] = ('[' :: n) ++ [']'] := by simp
    rw [hsplit]
    exact List.take_left' (by simp)
  simp only [loadStep]
  rw [hstrip, if_pos hhead, hfi]
  simp [htake]

theorem loadStep_blank (d : IniFile) (n : Str) (b : Bool) :
    loadStep (d, some n, b) [] =
      (⟨updateFirst (fun s => { s with lines := s.lines ++ [[]] }) n
        d.sections⟩, some n, false) := by
  have hstrip : bomStrip b [] = [] := by
    simp only [bomStrip]
    rw [if_neg]
    rintro ⟨-, h3⟩
    rw [bom] at h3
    simp at h3
  simp only [loadStep]
  rw [hstrip, if_neg (by simp : ¬ ([] : Str).head? = some '[')]
  simp [parseLine]

theorem loadStep_kv (d : IniFile) (n : Str) (k v : Str) (hk : KeyWF k)
    (hv : ValWF v) :
    loadStep (d, some n, false) (k ++ '=' :: v) =
      (⟨updateFirst (fun s => s.set k v) n d.sections⟩, some n, false) := by
  have hp := parseLine_kv k v hk hv
  obtain ⟨hkw, hke, hk1, hk2, hk3, hk4, hk5⟩ := hk
  have hhead : ¬ (k ++ '=' :: v).head? = some '[' := by
    rcases k with _ | ⟨c, k'⟩
    · simp
    · simpa using hk1
  have hpre : ¬ ((k ++ '=' :: v) ≠ [] ∧ ((k ++ '=' :: v).head? = some '$' ∨
      (k ++ '=' :: v).head? = some '+' ∨
      (k ++ '=' :: v).head? = some '*')) := by
    rintro ⟨-, hd⟩
    rcases k with _ | ⟨c, k'⟩
    · simp at hd
    · simp only [List.cons_append, List.head?_cons, Option.some.injEq] at hd
      rcases hd with rfl | rfl | rfl
      · exact hk3 rfl
      · exact hk4 rfl
      · exact hk5 rfl
  simp only [loadStep, bomStrip_false]
  rw [if_neg hhead]
  simp only [hp]
  rw [if_neg hpre]


theorem loadStep_raw_prefix (d : IniFile) (n : Str) (b : Bool) (line : Str)
    (c : Char) (hc : line.head? = some c)
    (hmem : c = '$' ∨ c = '+' ∨ c = '*') :
    loadStep (d, some n, b) line =
      (⟨updateFirst (fun s => { s with lines := s.lines ++ [line] }) n
        d.sections⟩, some n, false) := by
  have hne : c ≠ Char.ofNat 0xEF := by
    rcases hmem with rfl | rfl | rfl <;> decide
  have hstrip := bomStrip_head_ne b line c hc hne
  have hhead : ¬ line.head? = some '[' := by
    rw [hc]
    rcases hmem with rfl | rfl | rfl <;> decide
  have hnil : line ≠ [] := by
    rcases line with _ | _
    · simp at hc
    · simp
  have hpre : line ≠ [] ∧ (line.head? = some '$' ∨ line.head? = some '+' ∨
      line.head? = some '*') := by
    refine ⟨hnil, ?_⟩
    rw [hc]
    rcases hmem with rfl | rfl | rfl
    · exact Or.inl rfl
    · exact Or.inr (Or.inl rfl)
    · exact Or.inr (Or.inr rfl)
  simp only [loadStep]
  rw [hstrip, if_neg hhead]
  cases hp : parseLine line with
  | none => simp [hp]
  | some kv =>
      simp only [hp]
      rw [if_pos hpre]

end IniFile

/-! The save/load round trip for well-formed key/value documents. -/

theorem section_set_eq_of_absent (t : Section) (k v : Str)
    (h : JsMap.get t.values k = none) :
    t.set k v = ⟨t.name, t.keysOrder ++ [k], t.lines, t.values ++ [(k, v)]⟩ := by
  have hhas : JsMap.has t.values k = false := by simp [JsMap.has, h]
  have hfst : k ∉ t.values.map Prod.fst := (JsMap.get_eq_none_iff _ _).mp h
  obtain ⟨tn, tk, tl, tv⟩ := t
  simp only [Section.set, hhas, Bool.false_eq_true, if_false]
  simp [JsMap.set_of_absent tv k v hfst]

theorem foldl_set_fresh (ks : List Str) (vf : Str → Str) (t : Section)
    (hnd : ks.Nodup) (habs : ∀ k ∈ ks, JsMap.get t.values k = none) :
    ks.foldl (fun u k => u.set k (vf k)) t =
      ⟨t.name, t.keysOrder ++ ks, t.lines,
       t.values ++ ks.map (fun k => (k, vf k))⟩ := by
  induction ks generalizing t with
  | nil =>
      obtain ⟨tn, tk, tl, tv⟩ := t
      simp
  | cons k ks ih =>
    simp only [List.nodup_cons] at hnd
    have habsk : JsMap.get t.values k = none :=
      habs k (List.mem_cons_self k ks)
    rw [List.foldl_cons, section_set_eq_of_absent t k (vf k) habsk]
    rw [ih _ hnd.2 ?_]
    · simp
    · intro k' hk'
      have hne : k ≠ k' := fun hc => hnd.1 (hc ▸ hk')
      have h1 : JsMap.get t.values k' = none :=
        habs k' (List.mem_cons_of_mem k hk')
      rw [JsMap.get_append_of_none _ _ _ h1]
      simp [JsMap.get, hne]

theorem processLines_kv_block (ks : List Str) (vf : Str → Str)
    (d₀ : List Section) (t : Section)
    (hn : t.name ∉ d₀.map Section.name)
    (hwf : ∀ k ∈ ks, KeyWF k ∧ ValWF (vf k)) :
    IniFile.processLines (⟨d₀ ++ [t]⟩, some t.name, false)
        (ks.map (fun k => k ++ '=' :: vf k)) =
      (⟨d₀ ++ [ks.foldl (fun u k => u.set k (vf k)) t]⟩,
        some t.name, false) := by
  induction ks generalizing t with
  | nil => simp [IniFile.processLines]
  | cons k ks ih =>
    rw [List.map_cons, IniFile.processLines_cons]
    rw [IniFile.loadStep_kv ⟨d₀ ++ [t]⟩ t.name k (vf k)
      (hwf k (List.mem_cons_self k ks)).1 (hwf k (List.mem_cons_self k ks)).2]
    show IniFile.processLines
      (⟨IniFile.updateFirst (fun s => s.set k (vf k)) t.name (d₀ ++ [t])⟩,
        some t.name, false) _ = _
    rw [IniFile.updateFirst_append_of_not_mem _ d₀ t hn]
    have hname : (t.set k (vf k)).name = t.name := Section.set_name t k (vf k)
    have hrec := ih (t.set k (vf k)) (by rw [hname]; exact hn)
      (fun k' hk' => hwf k' (List.mem_cons_of_mem k hk'))
    rw [hname] at hrec
    rw [hrec, List.foldl_cons]

theorem processLines_block (d : IniFile) (cur : Option Str) (b : Bool)
    (s : Section) (hwf : SectionWF s)
    (hn : s.name ∉ d.sections.map Section.name) :
    IniFile.processLines (d, cur, b) (IniFile.saveSection s) =
      (⟨d.sections ++ [rebuilt s]⟩, some s.name, false) := by
  obtain ⟨hinv, hkne, hlines, hname, hnl, hcr, hkeys, hvals⟩ := hwf
  have hss : IniFile.saveSection s = ('[' :: s.name ++ [']']) ::
      (s.keysOrder.map
        (fun k => k ++ '=' :: (JsMap.get s.values k).getD
          IniFile.undefinedStr) ++ [[]]) := by
    simp [IniFile.saveSection, hkne]
  rw [hss, IniFile.processLines_cons, IniFile.loadStep_header d cur b s.name
    hname]
  rw [IniFile.getOrCreateSection_of_none d s.name
    ((IniFile.getSection_eq_none_iff d s.name).mpr hn)]
  rw [IniFile.processLines_append]
  have hemp : (IniFile.emptySection s.name).name = s.name := rfl
  have hkv := processLines_kv_block s.keysOrder
    (fun k => (JsMap.get s.values k).getD IniFile.undefinedStr)
    d.sections (IniFile.emptySection s.name) (by rw [hemp]; exact hn) ?_
  · rw [hemp] at hkv
    rw [hkv]
    rw [foldl_set_fresh s.keysOrder _ (IniFile.emptySection s.name) hinv.1
      (fun k _ => rfl)]
    rw [IniFile.processLines_cons, IniFile.loadStep_blank,
      IniFile.processLines_nil]
    simp only [IniFile.emptySection, List.nil_append]
    rw [IniFile.updateFirst_append_of_not_mem _ d.sections
      ⟨s.name, s.keysOrder, [],
        s.keysOrder.map
          (fun k => (k, (JsMap.get s.values k).getD IniFile.undefinedStr))⟩ hn]
    simp [rebuilt]
  · intro k hk
    refine ⟨hkeys k hk, ?_⟩
    have hm : k ∈ s.values.map Prod.fst := (hinv.2.2 k).mpr hk
    have hsome : (JsMap.get s.values k).isSome := (JsMap.isSome_get_iff _ _).mpr hm
    obtain ⟨v, hv⟩ := Option.isSome_iff_exists.mp hsome
    show ValWF ((JsMap.get s.values k).getD IniFile.undefinedStr)
    rw [hv, Option.getD_some]
    exact hvals k v hv

theorem processLines_blocks (ss : List Section) (d : IniFile)
    (cur : Option Str) (b : Bool)
    (hwf : ∀ s ∈ ss, SectionWF s)
    (hnd : (ss.map Section.name).Nodup)
    (hdis : ∀ s ∈ ss, s.name ∉ d.sections.map Section.name) :
    ∃ cur' b', IniFile.processLines (d, cur, b)
        ((ss.map IniFile.saveSection).flatten) =
      (⟨d.sections ++ ss.map rebuilt⟩, cur', b') := by
  induction ss generalizing d cur b with
  | nil => exact ⟨cur, b, by simp [IniFile.processLines]⟩
  | cons s ss ih =>
    simp only [List.map_cons, List.nodup_cons] at hnd ⊢
    rw [List.flatten_cons, IniFile.processLines_append]
    rw [processLines_block d cur b s (hwf s (List.mem_cons_self s ss))
      (hdis s (List.mem_cons_self s ss))]
    have hdis' : ∀ t ∈ ss, t.name ∉
        (IniFile.mk (d.sections ++ [rebuilt s])).sections.map Section.name := by
      intro t ht
      simp only [List.map_append]
      intro hc
      rcases List.mem_append.mp hc with hc | hc
      · exact hdis t (List.mem_cons_of_mem s ht) hc
      · have : t.name = s.name := by
          simpa [rebuilt] using hc
        exact hnd.1 (this ▸ List.mem_map.mpr ⟨t, ht, rfl⟩)
    obtain ⟨c', b', hrec⟩ := ih ⟨d.sections ++ [rebuilt s]⟩ (some s.name) false
      (fun t ht => hwf t (List.mem_cons_of_mem s ht)) hnd.2 hdis'
    refine ⟨c', b', ?_⟩
    rw [hrec]
    simp

theorem load_save_eq (d : IniFile) (hwf : DocWF d) :
    (IniFile.load ⟨[]⟩ (IniFile.save d).1 true).1 =
      ⟨d.sections.map rebuilt⟩ := by
  obtain ⟨hnd, hs⟩ := hwf
  obtain ⟨c', b', h⟩ := processLines_blocks d.sections ⟨[]⟩ none true hs hnd
    (by simp)
  simp only [IniFile.load, IniFile.save, if_true]
  rw [h]
  simp

theorem get_map_pair (ks : List Str) (g : Str → Str) (x : Str) :
    JsMap.get (ks.map (fun k => (k, g k))) x =
      if x ∈ ks then some (g x) else none := by
  induction ks with
  | nil => simp [JsMap.get]
  | cons k ks ih =>
    by_cases h : k = x
    · subst h
      simp [JsMap.get]
    · rw [List.map_cons]
      show JsMap.get ((k, g k) :: ks.map _) x = _
      rw [JsMap.get, if_neg h, ih]
      by_cases hx : x ∈ ks
      · rw [if_pos hx, if_pos (List.mem_cons_of_mem k hx)]
      · rw [if_neg hx, if_neg (by
          intro hc
          rcases List.mem_cons.mp hc with hc | hc
          · exact h hc.symm
          · exact hx hc)]

/-! Frame lemmas for `load`: which sections a run of the line loop can
create, touch, or leave alone. -/

theorem loadStep_branches (d : IniFile) (cur : Option Str) (b : Bool)
    (line : Str) :
    (∃ n, headerNameOf (IniFile.bomStrip b line) = some n ∧
       IniFile.loadStep (d, cur, b) line =
         (d.getOrCreateSection n, some n, false)) ∨
    (headerNameOf (IniFile.bomStrip b line) = none ∧
       (IniFile.loadStep (d, cur, b) line = (d, cur, false) ∨
        ∃ n f, cur = some n ∧
          IniFile.loadStep (d, cur, b) line =
            (⟨IniFile.updateFirst f n d.sections⟩, cur, false) ∧
          (∀ s, (f s).name = s.name) ∧
          (∀ s, SectionInv s → SectionInv (f s)))) := by
  by_cases hh : (IniFile.bomStrip b line).head? = some '['
  · cases hf : findIndex (fun c => c == ']') (IniFile.bomStrip b line) with
    | some e =>
        left
        refine ⟨((IniFile.bomStrip b line).take e).drop 1, ?_, ?_⟩
        · simp [headerNameOf, hh, hf]
        · simp only [IniFile.loadStep]
          rw [if_pos hh, hf]
    | none =>
        right
        constructor
        · simp [headerNameOf, hh, hf]
        · left
          simp only [IniFile.loadStep]
          rw [if_pos hh, hf]
  · have hhn : headerNameOf (IniFile.bomStrip b line) = none := by
      simp [headerNameOf, hh]
    refine Or.inr ⟨hhn, ?_⟩
    cases cur with
    | none =>
        left
        simp only [IniFile.loadStep]
        rw [if_neg hh]
    | some n =>
        right
        cases hp : IniFile.parseLine (IniFile.bomStrip b line) with
        | none =>
            refine ⟨n, fun s => { s with lines := s.lines ++
              [IniFile.bomStrip b line] }, rfl, ?_, fun s => rfl,
              fun s hs => hs⟩
            simp only [IniFile.loadStep]
            rw [if_neg hh]
            simp [hp]
        | some kv =>
            by_cases hpre : IniFile.bomStrip b line ≠ [] ∧
                ((IniFile.bomStrip b line).head? = some '$' ∨
                 (IniFile.bomStrip b line).head? = some '+' ∨
                 (IniFile.bomStrip b line).head? = some '*')
            · refine ⟨n, fun s => { s with lines := s.lines ++
                [IniFile.bomStrip b line] }, rfl, ?_, fun s => rfl,
                fun s hs => hs⟩
              simp only [IniFile.loadStep]
              rw [if_neg hh]
              simp only [hp]
              rw [if_pos hpre]
            · refine ⟨n, fun s => s.set kv.1 kv.2, rfl, ?_,
                fun s => Section.set_name s kv.1 kv.2,
                fun s hs => sectionInv_set s kv.1 kv.2 hs⟩
              simp only [IniFile.loadStep]
              rw [if_neg hh]
              simp only [hp]
              rw [if_neg hpre]


theorem loadStep_flag (d : IniFile) (cur : Option Str) (b : Bool)
    (line : Str) : (IniFile.loadStep (d, cur, b) line).2.2 = false := by
  rcases loadStep_branches d cur b line with ⟨n, -, heq⟩ |
    ⟨-, heq | ⟨n, f, -, heq, -, -⟩⟩ <;> rw [heq]

theorem loadStep_names (d : IniFile) (cur : Option Str) (b : Bool)
    (line : Str) :
    (IniFile.loadStep (d, cur, b) line).1.sections.map Section.name =
      d.sections.map Section.name ∨
    ∃ n, headerNameOf (IniFile.bomStrip b line) = some n ∧
      n ∉ d.sections.map Section.name ∧
      (IniFile.loadStep (d, cur, b) line).1.sections.map Section.name =
        d.sections.map Section.name ++ [n] := by
  rcases loadStep_branches d cur b line with ⟨n, hn, heq⟩ |
    ⟨hn, heq | ⟨n, f, hcur, heq, hf, hinv⟩⟩
  · rw [heq]
    cases h : d.getSection n with
    | some t =>
        left
        rw [IniFile.getOrCreateSection_of_some d n t h]
    | none =>
        right
        refine ⟨n, hn, (IniFile.getSection_eq_none_iff d n).mp h, ?_⟩
        rw [IniFile.getOrCreateSection_of_none d n h]
        simp [IniFile.emptySection]
  · left
    rw [heq]
  · left
    rw [heq]
    exact IniFile.map_name_updateFirst f n d.sections hf

theorem mem_mentionedAux_head (b : Bool) (line : Str) (rest : List Str)
    (n : Str) (h : headerNameOf (IniFile.bomStrip b line) = some n) :
    n ∈ mentionedAux b (line :: rest) := by
  simp [mentionedAux, h]

theorem mem_mentionedAux_tail (b : Bool) (line : Str) (rest : List Str)
    (x : Str) (h : x ∈ mentionedAux false rest) :
    x ∈ mentionedAux b (line :: rest) := by
  cases hh : headerNameOf (IniFile.bomStrip b line) <;>
    simp [mentionedAux, hh, h]

theorem processLines_names (input : List Str) :
    ∀ (d : IniFile) (cur : Option Str) (b : Bool) (x : Str),
      x ∈ (IniFile.processLines (d, cur, b) input).1.sections.map
        Section.name →
      x ∈ d.sections.map Section.name ∨ x ∈ mentionedAux b input := by
  induction input with
  | nil =>
      intro d cur b x hx
      exact Or.inl hx
  | cons line rest ih =>
    intro d cur b x hx
    rw [IniFile.processLines_cons] at hx
    rcases hst : IniFile.loadStep (d, cur, b) line with ⟨d₁, cur₁, b₁⟩
    have hb : b₁ = false := by
      have hfl := loadStep_flag d cur b line
      rw [hst] at hfl
      exact hfl
    subst hb
    rw [hst] at hx
    rcases ih d₁ cur₁ false x hx with h1 | h1
    · rcases loadStep_names d cur b line with hn | ⟨m, hm, hmm, hn⟩
      · rw [hst] at hn
        exact Or.inl (hn ▸ h1)
      · rw [hst] at hn
        rw [hn] at h1
        rcases List.mem_append.mp h1 with h2 | h2
        · exact Or.inl h2
        · right
          have hx2 : x = m := by simpa using h2
          exact hx2 ▸ mem_mentionedAux_head b line rest m hm
    · exact Or.inr (mem_mentionedAux_tail b line rest x h1)

theorem processLines_preserves (input : List Str) :
    ∀ (d : IniFile) (cur : Option Str) (b : Bool) (s : Section),
      s ∈ d.sections → s.name ∉ mentionedAux b input →
      (∀ n, cur = some n → s.name ≠ n) →
      s ∈ (IniFile.processLines (d, cur, b) input).1.sections := by
  induction input with
  | nil =>
      intro d cur b s hs hm hcur
      exact hs
  | cons line rest ih =>
    intro d cur b s hs hm hcur
    rw [IniFile.processLines_cons]
    rcases hst : IniFile.loadStep (d, cur, b) line with ⟨d₁, cur₁, b₁⟩
    have hb : b₁ = false := by
      have hfl := loadStep_flag d cur b line
      rw [hst] at hfl
      exact hfl
    subst hb
    have hmtail : s.name ∉ mentionedAux false rest := by
      intro hc
      exact hm (mem_mentionedAux_tail b line rest s.name hc)
    rcases loadStep_branches d cur b line with ⟨n, hn, heq⟩ |
      ⟨hn, heq | ⟨n, f, hcur', heq, hf, hinv⟩⟩
    · rw [hst] at heq
      rw [Prod.mk.injEq, Prod.mk.injEq] at heq
      obtain ⟨hd, hc, -⟩ := heq
      have hne : s.name ≠ n := by
        intro hc2
        exact hm (hc2 ▸ mem_mentionedAux_head b line rest n hn)
      refine ih d₁ cur₁ false s ?_ hmtail ?_
      · rw [hd]
        exact IniFile.mem_getOrCreateSection d n s hs
      · intro m hcm
        rw [hc] at hcm
        injection hcm with hnm
        exact hnm ▸ hne
    · rw [hst] at heq
      injection heq with h1 h2
      injection h2 with h3 h4
      refine ih d₁ cur₁ false s (h1 ▸ hs) hmtail ?_
      intro m hcm
      exact hcur m (h3 ▸ hcm)
    · rw [hst] at heq
      injection heq with h1 h2
      injection h2 with h3 h4
      have hne : s.name ≠ n := hcur n hcur'
      refine ih d₁ cur₁ false s ?_ hmtail ?_
      · rw [h1]
        exact IniFile.mem_updateFirst_of_ne f n d.sections s hs hne
      · intro m hcm
        exact hcur m (h3 ▸ hcm)

theorem docInv_getOrCreateSection (d : IniFile) (n : Str) (h : DocInv d) :
    DocInv (d.getOrCreateSection n) := by
  cases hg : d.getSection n with
  | some t =>
      rw [IniFile.getOrCreateSection_of_some d n t hg]
      exact h
  | none =>
      rw [IniFile.getOrCreateSection_of_none d n hg]
      intro s hs
      rcases List.mem_append.mp hs with hs | hs
      · exact h s hs
      · have : s = IniFile.emptySection n := by simpa using hs
        exact this ▸ sectionInv_empty n

theorem processLines_inv (input : List Str) :
    ∀ (d : IniFile) (cur : Option Str) (b : Bool), DocInv d →
      DocInv (IniFile.processLines (d, cur, b) input).1 := by
  induction input with
  | nil =>
      intro d cur b h
      exact h
  | cons line rest ih =>
    intro d cur b h
    rw [IniFile.processLines_cons]
    rcases hst : IniFile.loadStep (d, cur, b) line with ⟨d₁, cur₁, b₁⟩
    have hb : b₁ = false := by
      have hfl := loadStep_flag d cur b line
      rw [hst] at hfl
      exact hfl
    subst hb
    refine ih d₁ cur₁ false ?_
    rcases loadStep_branches d cur b line with ⟨n, hn, heq⟩ |
      ⟨hn, heq | ⟨n, f, hcur', heq, hf, hinv⟩⟩ <;> rw [hst] at heq <;>
      injection heq with h1 h2
    · exact h1 ▸ docInv_getOrCreateSection d n h
    · exact h1 ▸ h
    · rw [h1]
      intro s hs
      exact IniFile.sectionInv_updateFirst f n d.sections hinv h s hs

theorem processLines_nodup_names (input : List Str) :
    ∀ (d : IniFile) (cur : Option Str) (b : Bool),
      (d.sections.map Section.name).Nodup →
      ((IniFile.processLines (d, cur, b) input).1.sections.map
        Section.name).Nodup := by
  induction input with
  | nil =>
      intro d cur b h
      exact h
  | cons line rest ih =>
    intro d cur b h
    rw [IniFile.processLines_cons]
    rcases hst : IniFile.loadStep (d, cur, b) line with ⟨d₁, cur₁, b₁⟩
    have hb : b₁ = false := by
      have hfl := loadStep_flag d cur b line
      rw [hst] at hfl
      exact hfl
    subst hb
    refine ih d₁ cur₁ false ?_
    rcases loadStep_names d cur b line with hn | ⟨m, hm, hmm, hn⟩ <;>
      rw [hst] at hn <;> rw [hn]
    · exact h
    · simp [List.nodup_append, h, hmm]

theorem processLines_names_prefix (input : List Str) :
    ∀ (d : IniFile) (cur : Option Str) (b : Bool), ∃ extra,
      (IniFile.processLines (d, cur, b) input).1.sections.map Section.name =
        d.sections.map Section.name ++ extra := by
  induction input with
  | nil =>
      intro d cur b
      exact ⟨[], by simp [IniFile.processLines]⟩
  | cons line rest ih =>
    intro d cur b
    rw [IniFile.processLines_cons]
    rcases hst : IniFile.loadStep (d, cur, b) line with ⟨d₁, cur₁, b₁⟩
    have hb : b₁ = false := by
      have hfl := loadStep_flag d cur b line
      rw [hst] at hfl
      exact hfl
    subst hb
    obtain ⟨extra₂, h2⟩ := ih d₁ cur₁ false
    rcases loadStep_names d cur b line with hn | ⟨m, hm, hmm, hn⟩ <;>
      rw [hst] at hn
    · exact ⟨extra₂, by rw [h2, hn]⟩
    · exact ⟨[m] ++ extra₂, by rw [h2, hn, List.append_assoc]⟩

theorem section_get_set_self (s : Section) (k v dflt : Str) :
    (s.set k v).get k dflt = v := by
  simp only [Section.get, Section.set_values, JsMap.get_set_self]

/-! Additional helper lemmas for the claim statements. -/

theorem findIndex_eq_length_takeWhile {α : Type} (p : α → Bool) (l : List α)
    (h : ∃ a ∈ l, p a = true) :
    findIndex p l = some (l.takeWhile (fun a => !(p a))).length := by
  induction l with
  | nil => simp at h
  | cons a l ih =>
    cases hp : p a with
    | true => simp [findIndex, hp, List.takeWhile_cons, hp]
    | false =>
        have h' : ∃ x ∈ l, p x = true := by
          rcases h with ⟨x, hx, hpx⟩
          rcases List.mem_cons.mp hx with rfl | hx'
          · rw [hp] at hpx
            exact absurd hpx (by simp)
          · exact ⟨x, hx', hpx⟩
        simp [findIndex, hp, List.takeWhile_cons, ih h']

theorem take_takeWhile_length {α : Type} (p : α → Bool) (l : List α) :
    l.take (l.takeWhile p).length = l.takeWhile p := by
  induction l with
  | nil => rfl
  | cons a l ih =>
    cases hp : p a with
    | true => simp [List.takeWhile_cons, hp, ih]
    | false => simp [List.takeWhile_cons, hp]

theorem map_updateFirst_of_fix {β : Type} (g : Section → β)
    (f : Section → Section) (n : Str) (l : List Section)
    (hf : ∀ s, g (f s) = g s) :
    (IniFile.updateFirst f n l).map g = l.map g := by
  induction l with
  | nil => rfl
  | cons t rest ih =>
    by_cases ht : t.name = n
    · simp [IniFile.updateFirst, ht, hf t]
    · simp [IniFile.updateFirst, ht, ih]

/-! The byte-level composition of save and the loader's line splitting. -/

theorem splitLines_line (l rest : Str) (hl : ∀ c ∈ l, c ≠ '\n' ∧ c ≠ '\r') :
    IniFile.splitLines (l ++ '\n' :: rest) = l :: IniFile.splitLines rest := by
  induction l with
  | nil => rfl
  | cons c l ih =>
    have hc := hl c (List.mem_cons_self c l)
    have hrec := ih (fun x hx => hl x (List.mem_cons_of_mem c hx))
    show IniFile.splitLines (c :: (l ++ '\n' :: rest)) =
      (c :: l) :: IniFile.splitLines rest
    rw [IniFile.splitLines]
    · rw [hrec]
    · intro rest1 hcr hdummy
      exact hc.2 hcr
    · intro hcr
      exact hc.2 hcr
    · intro hcn
      exact hc.1 hcn

theorem splitLines_chunks (chunks : List Str)
    (h : ∀ l ∈ chunks, ∀ c ∈ l, c ≠ '\n' ∧ c ≠ '\r') :
    IniFile.splitLines ((chunks.map (fun l => l ++ ['\n'])).flatten) =
      chunks := by
  induction chunks with
  | nil => rfl
  | cons l ls ih =>
      rw [List.map_cons, List.flatten_cons]
      have hassoc : (l ++ ['\n']) ++ (ls.map (fun l => l ++ ['\n'])).flatten =
          l ++ '\n' :: (ls.map (fun l => l ++ ['\n'])).flatten := by simp
      rw [hassoc, splitLines_line l _ (h l (List.mem_cons_self l ls)),
        ih (fun x hx => h x (List.mem_cons_of_mem l hx))]

theorem not_ws_ne_terminators (c : Char) (h : isWs c = false) :
    c ≠ '\n' ∧ c ≠ '\r' := by
  constructor
  · rintro rfl
    exact absurd h (by decide)
  · rintro rfl
    exact absurd h (by decide)

theorem save_chunks_clean (d : IniFile) (h : DocWF d) :
    ∀ l ∈ (IniFile.save d).1, ∀ c ∈ l, c ≠ '\n' ∧ c ≠ '\r' := by
  intro l hl c hc
  obtain ⟨hnd, hws⟩ := h
  have hl' : l ∈ (d.sections.map IniFile.saveSection).flatten := hl
  rw [List.mem_flatten] at hl'
  obtain ⟨chunks, hchunks, hlc⟩ := hl'
  rw [List.mem_map] at hchunks
  obtain ⟨s, hs, rfl⟩ := hchunks
  obtain ⟨hinv, hkne, hlines, hname, hnl, hcr, hkeys, hvals⟩ := hws s hs
  simp only [IniFile.saveSection, if_neg hkne] at hlc
  rcases List.mem_cons.mp hlc with rfl | hlc2
  · rcases List.mem_cons.mp hc with rfl | hc2
    · exact ⟨by decide, by decide⟩
    · rcases List.mem_append.mp hc2 with hcn | hcs
      · constructor
        · rintro rfl
          exact hnl hcn
        · rintro rfl
          exact hcr hcn
      · have hceq : c = ']' := by simpa using hcs
        subst hceq
        exact ⟨by decide, by decide⟩
  · rcases List.mem_append.mp hlc2 with hkv | hblank
    · rw [List.mem_map] at hkv
      obtain ⟨k, hk, rfl⟩ := hkv
      have hm : k ∈ s.values.map Prod.fst := (hinv.2.2 k).mpr hk
      obtain ⟨w, hw⟩ := Option.isSome_iff_exists.mp
        ((JsMap.isSome_get_iff _ _).mpr hm)
      rcases List.mem_append.mp hc with hck | hcv
      · exact not_ws_ne_terminators c ((hkeys k hk).1 c hck)
      · rcases List.mem_cons.mp hcv with rfl | hcv2
        · exact ⟨by decide, by decide⟩
        · have hcv3 : c ∈ w := by
            rw [hw, Option.getD_some] at hcv2
            exact hcv2
          exact not_ws_ne_terminators c (((hvals k w hw) c hcv3).1)
    · have hleq : l = [] := by simpa using hblank
      subst hleq
      simp at hc

theorem splitLines_saveText (d : IniFile) (h : DocWF d) :
    IniFile.splitLines (IniFile.saveText d) = (IniFile.save d).1 :=
  splitLines_chunks (d.sections.map IniFile.saveSection).flatten
    (save_chunks_clean d h)

/-! The claims. -/

/-- C3: `parseLine` returns the absent pair exactly when the line is empty
or starts with `#`; otherwise, when the line contains `=`, the key is the
part before the first `=` with whitespace removed, the value the part
after it with whitespace and quotes removed; when it contains no `=`, the
result is the present pair of empty strings. -/
theorem claim3_parseLine (line : Str) :
    (IniFile.parseLine line = none ↔ line = [] ∨ line.head? = some '#') ∧
    (¬(line = [] ∨ line.head? = some '#') →
      ('=' ∉ line → IniFile.parseLine line = some ([], [])) ∧
      ('=' ∈ line → IniFile.parseLine line =
        some
          ((line.takeWhile (fun c => !(c == '='))).filter (fun c => !isWs c),
           (line.drop
              ((line.takeWhile (fun c => !(c == '='))).length + 1)).filter
             (fun c => !isWs c && !isQuote c)))) := by
  refine ⟨IniFile.parseLine_eq_none_iff line, fun h => ⟨fun hno => ?_, fun hyes => ?_⟩⟩
  · have hfi : findIndex (fun c => c == '=') line = none := by
      rw [findIndex_eq_none_iff]
      intro a ha
      simp only [beq_eq_false_iff_ne, ne_eq]
      exact fun hc => hno (hc ▸ ha)
    simp [IniFile.parseLine, h, hfi]
  · have hfi := findIndex_eq_length_takeWhile (fun c => c == '=') line
      ⟨'=', hyes, by simp⟩
    have htk := take_takeWhile_length (fun c => !(c == '=')) line
    simp only [IniFile.parseLine, if_neg h, hfi, htk]

/-- C3 witness: a concrete key/value line splits as specified. -/
theorem claim3_witness :
    IniFile.parseLine ['a', '=', 'b'] = some (['a'], ['b']) := by
  have h := ((claim3_parseLine ['a', '=', 'b']).2 (by decide)).2 (by decide)
  rw [h]
  decide

/-- C2: for every section satisfying the representation invariant, the
serialized form is the header line followed by the raw lines (when there
are no keys) or the `key=value` lines in key order using the stored
values (when there are keys — the raw lines then have no influence on
the output), followed by one blank line; a section with neither keys nor
raw lines still produces its header and the blank line. -/
theorem claim2_saveSection (s : Section) (hinv : SectionInv s) :
    (s.keysOrder = [] →
      IniFile.saveSection s = ('[' :: s.name ++ [']']) :: s.lines ++ [[]]) ∧
    (s.keysOrder ≠ [] →
      IniFile.saveSection s = ('[' :: s.name ++ [']']) ::
        s.keysOrder.map (fun k => k ++ '=' ::
          (JsMap.get s.values k).getD IniFile.undefinedStr) ++ [[]] ∧
      (∀ k ∈ s.keysOrder, ∃ v, JsMap.get s.values k = some v ∧
        (JsMap.get s.values k).getD IniFile.undefinedStr = v) ∧
      ∀ raw, IniFile.saveSection ⟨s.name, s.keysOrder, raw, s.values⟩ =
        IniFile.saveSection s) ∧
    (s.keysOrder = [] ∧ s.lines = [] →
      IniFile.saveSection s = [('[' :: s.name ++ [']']), []]) := by
  refine ⟨fun h => by simp [IniFile.saveSection, h], fun h => ⟨?_, ?_, ?_⟩,
    fun h => by simp [IniFile.saveSection, h.1, h.2]⟩
  · simp [IniFile.saveSection, h]
  · intro k hk
    have hm : k ∈ s.values.map Prod.fst := (hinv.2.2 k).mpr hk
    obtain ⟨v, hv⟩ := Option.isSome_iff_exists.mp
      ((JsMap.isSome_get_iff _ _).mpr hm)
    exact ⟨v, hv, by rw [hv, Option.getD_some]⟩
  · intro raw
    simp [IniFile.saveSection, h]

/-- C2 witness: serialization of a concrete section with one key and one
raw line drops the raw line. -/
theorem claim2_witness :
    IniFile.saveSection ⟨['A'], [['k']], [['#', 'c']], [(['k'], ['v'])]⟩ =
      [['[', 'A', ']'], ['k', '=', 'v'], []] := by
  have h := (claim2_saveSection ⟨['A'], [['k']], [['#', 'c']], [(['k'], ['v'])]⟩
    ⟨by decide, by decide, fun k => by simp⟩).2.1 (by decide)
  rw [h.1]
  decide

/-- C4: during load, a non-empty line whose first character is `$`, `+`
or `*`, processed while a current section exists, is appended verbatim to
that section's raw lines, and no section's keys or values change (in
particular the line is never turned into a key/value entry). -/
theorem claim4_rawPassthrough (d : IniFile) (n : Str) (b : Bool)
    (line : Str) (c : Char) (hc : line.head? = some c)
    (hmem : c = '$' ∨ c = '+' ∨ c = '*') :
    IniFile.loadStep (d, some n, b) line =
      (⟨IniFile.updateFirst
          (fun s => { s with lines := s.lines ++ [line] }) n d.sections⟩,
        some n, false) ∧
    (IniFile.loadStep (d, some n, b) line).1.sections.map
        (fun s => (s.name, s.keysOrder, s.values)) =
      d.sections.map (fun s => (s.name, s.keysOrder, s.values)) := by
  have h1 := IniFile.loadStep_raw_prefix d n b line c hc hmem
  refine ⟨h1, ?_⟩
  rw [h1]
  exact map_updateFirst_of_fix _ _ n d.sections (fun s => rfl)

/-- C4 witness: a concrete `$`-line is pushed raw into the current
section. -/
theorem claim4_witness :
    IniFile.loadStep (⟨[⟨['A'], [], [], []⟩]⟩, some ['A'], false)
        ['$', 'x'] =
      (⟨[⟨['A'], [], [['$', 'x']], []⟩]⟩, some ['A'], false) := by
  have h := (claim4_rawPassthrough ⟨[⟨['A'], [], [], []⟩]⟩ ['A'] false
    ['$', 'x'] '$' rfl (Or.inl rfl)).1
  rw [h]
  decide

/-- C5: every section reachable through the public mutation API satisfies
the invariant (no duplicate entries in keysOrder, domain of values equal
to the set of keysOrder entries), and the document operations — load
included — preserve the invariant of every section of the document. -/
theorem claim5_invariant :
    (∀ s : Section, Reachable s → s.keysOrder.Nodup ∧
      ∀ k, k ∈ s.values.map Prod.fst ↔ k ∈ s.keysOrder) ∧
    (∀ (d : IniFile) (input : List Str) (keep : Bool), DocInv d →
      DocInv (IniFile.load d input keep).1) ∧
    (∀ (d : IniFile) (n : Str), DocInv d →
      DocInv (d.getOrCreateSection n)) ∧
    (∀ (d : IniFile) (n : Str) (ls : List Str), DocInv d →
      DocInv (d.setLines n ls)) ∧
    (∀ (d : IniFile) (n k : Str), DocInv d → DocInv (d.deleteKey n k).2) := by
  have hreach : ∀ s : Section, Reachable s → SectionInv s := by
    intro s h
    induction h with
    | mkEmpty n => exact sectionInv_empty n
    | setStep s k v _ ih => exact sectionInv_set s k v ih
    | delStep s k _ ih => exact sectionInv_delete s k ih
    | setLinesStep s ls _ ih => exact sectionInv_setLines s ls ih
  refine ⟨fun s h => ⟨(hreach s h).1, (hreach s h).2.2⟩, ?_, ?_, ?_, ?_⟩
  · intro d input keep h
    have h0 : DocInv (if keep then d else ⟨[]⟩) := by
      cases keep with
      | true => exact h
      | false => intro s hs; simp at hs
    exact processLines_inv input _ none true h0
  · exact fun d n h => docInv_getOrCreateSection d n h
  · intro d n ls h
    intro s hs
    exact IniFile.sectionInv_updateFirst _ n (d.getOrCreateSection n).sections
      (fun t ht => sectionInv_setLines t ls ht)
      (docInv_getOrCreateSection d n h) s hs
  · intro d n k h
    cases hg : d.getSection n with
    | none => simp only [IniFile.deleteKey, hg]; exact h
    | some t =>
        simp only [IniFile.deleteKey, hg]
        intro s hs
        exact IniFile.sectionInv_updateFirst _ n d.sections
          (fun u hu => sectionInv_delete u k hu) h s hs

/-- C5 witness: the invariant holds for a freshly created section. -/
theorem claim5_witness :
    ([] : List Str).Nodup ∧
    ∀ k : Str, k ∈ (([] : List (Str × Str)).map Prod.fst) ↔
      k ∈ ([] : List Str) :=
  claim5_invariant.1 (IniFile.emptySection ['A']) (Reachable.mkEmpty ['A'])

/-- C7: `set` on a key already in keysOrder updates the stored value and
leaves keysOrder entirely unchanged; on a new key it appends it as the
last entry and adds the mapping; other keys' values are untouched. -/
theorem claim7_set (s : Section) (k v : Str)
    (hiff : (JsMap.get s.values k).isSome ↔ k ∈ s.keysOrder) :
    (k ∈ s.keysOrder → (s.set k v).keysOrder = s.keysOrder) ∧
    (k ∉ s.keysOrder → (s.set k v).keysOrder = s.keysOrder ++ [k]) ∧
    JsMap.get (s.set k v).values k = some v ∧
    (∀ k', k' ≠ k →
      JsMap.get (s.set k v).values k' = JsMap.get s.values k') := by
  refine ⟨fun h => ?_, fun h => ?_, ?_, fun k' h => ?_⟩
  · exact Section.set_keysOrder_of_has s k v (by
      simp only [JsMap.has]
      exact (hiff.mpr h))
  · exact Section.set_keysOrder_of_not_has s k v (by
      simp only [JsMap.has]
      rw [Bool.eq_false_iff]
      intro hc
      exact h (hiff.mp hc))
  · rw [Section.set_values]
    exact JsMap.get_set_self s.values k v
  · rw [Section.set_values]
    exact JsMap.get_set_ne s.values k v k' h

/-- C7 witness: setting an existing key keeps its position and updates
the value. -/
theorem claim7_witness :
    ((Section.mk ['A'] [['k']] [] [(['k'], ['v'])]).set ['k'] ['w']).keysOrder
      = [['k']] ∧
    JsMap.get
      ((Section.mk ['A'] [['k']] [] [(['k'], ['v'])]).set ['k'] ['w']).values
      ['k'] = some ['w'] := by
  have h := claim7_set (Section.mk ['A'] [['k']] [] [(['k'], ['v'])])
    ['k'] ['w'] (by decide)
  exact ⟨h.1 (by decide), h.2.2.1⟩

/-- C8: `delete` on an absent key returns false and leaves the section
unchanged; on a present key it returns true, removes the key from the
map and from keysOrder (preserving the relative order of the remaining
keys), and leaves name and raw lines unchanged. -/
theorem claim8_delete (s : Section) (k : Str) (hinv : SectionInv s) :
    (JsMap.get s.values k = none → s.delete k = (false, s)) ∧
    (JsMap.get s.values k ≠ none →
      (s.delete k).1 = true ∧
      JsMap.get (s.delete k).2.values k = none ∧
      (∀ k', k' ≠ k →
        JsMap.get (s.delete k).2.values k' = JsMap.get s.values k') ∧
      (s.delete k).2.keysOrder = s.keysOrder.filter (fun x => !(x == k)) ∧
      (s.delete k).2.lines = s.lines ∧ (s.delete k).2.name = s.name) := by
  constructor
  · intro hget
    have hm : k ∉ s.values.map Prod.fst := (JsMap.get_eq_none_iff _ _).mp hget
    have hdel := JsMap.del_of_absent s.values k hm
    have hr : (JsMap.del s.values k).1 = false := by rw [hdel]
    rw [Section.delete_eq_of_del_false s k hr, hdel]
  · intro hget
    have hm : k ∈ s.values.map Prod.fst := by
      by_contra hc
      exact hget ((JsMap.get_eq_none_iff _ _).mpr hc)
    have hr : (JsMap.del s.values k).1 = true := (JsMap.del_fst_iff _ _).mpr hm
    have hko : k ∈ s.keysOrder := (hinv.2.2 k).mp hm
    rw [Section.delete_eq_of_del_true s k hr]
    refine ⟨rfl, ?_, ?_, ?_, rfl, rfl⟩
    · rw [JsMap.get_del s.values k hinv.2.1 k, if_pos rfl]
    · intro k' h
      rw [JsMap.get_del s.values k hinv.2.1 k', if_neg h]
    · exact Section.spliceOut_of_mem s.keysOrder k hinv.1 hko

/-- C8 witness: deleting a present key removes it and keeps the other
key in order. -/
theorem claim8_witness :
    ((Section.mk ['A'] [['a'], ['b']] []
        [(['a'], ['x']), (['b'], ['y'])]).delete ['a']).1 = true ∧
    ((Section.mk ['A'] [['a'], ['b']] []
        [(['a'], ['x']), (['b'], ['y'])]).delete ['a']).2.keysOrder =
      [['b']] := by
  have h := (claim8_delete
    (Section.mk ['A'] [['a'], ['b']] [] [(['a'], ['x']), (['b'], ['y'])])
    ['a'] ⟨by decide, by decide, fun k => by simp⟩).2 (by decide)
  refine ⟨h.1, ?_⟩
  rw [h.2.2.2.1]
  decide

/-- C9: `load` and `save` always report success; an I/O failure
mid-stream corresponds in the model to truncation of the line sequence,
and the state after processing a truncated sequence is exactly the state
reached by the lines delivered before the failure. -/
theorem claim9_successFlags (d : IniFile) (input extra : List Str)
    (keep : Bool) (st : IniFile × Option Str × Bool) :
    (IniFile.load d input keep).2 = true ∧ (IniFile.save d).2 = true ∧
    IniFile.processLines st (input ++ extra) =
      IniFile.processLines (IniFile.processLines st input) extra :=
  ⟨rfl, rfl, IniFile.processLines_append st input extra⟩

/-- C10: `get` returns the stored value whenever the key is present — in
particular the empty string when that is the stored value — and returns
the supplied default (for every choice of default) exactly when the key
is absent; the section itself is untouched (the model is a pure
function of the section). -/
theorem claim10_get (s : Section) (k dflt : Str) :
    (∀ v, JsMap.get s.values k = some v → s.get k dflt = v) ∧
    (JsMap.get s.values k = some [] → s.get k dflt = []) ∧
    (JsMap.get s.values k = none ↔ ∀ d', s.get k d' = d') := by
  refine ⟨fun v hv => by simp [Section.get, hv],
    fun hv => by simp [Section.get, hv], ?_, ?_⟩
  · intro hn d'
    simp [Section.get, hn]
  · intro hall
    cases hg : JsMap.get s.values k with
    | none => rfl
    | some v =>
        have h1 := hall (v ++ ['a'])
        simp only [Section.get, hg] at h1
        have h2 := congrArg List.length h1
        simp at h2

/-- C10 witness: a stored empty-string value is returned instead of the
default. -/
theorem claim10_witness :
    (Section.mk ['A'] [['k']] [] [(['k'], [])]).get ['k'] ['d'] = [] :=
  (claim10_get (Section.mk ['A'] [['k']] [] [(['k'], [])])
    ['k'] ['d']).2.1 (by decide)

/-- C6: loading with keepCurrentData=false clears the document first, so
the result is independent of the prior document and only sections
mentioned in the source remain; loading with keepCurrentData=true leaves
every section not mentioned in the source identical and retrievable
under its name, never deletes a section (the prior name list survives as
a prefix), and overwrites matching keys of mentioned sections. -/
theorem claim6_loadFrame :
    (∀ (input : List Str) (d₁ d₂ : IniFile),
      IniFile.load d₁ input false = IniFile.load d₂ input false) ∧
    (∀ (input : List Str) (d : IniFile),
      ∀ s ∈ (IniFile.load d input false).1.sections,
        s.name ∈ mentionedNames input) ∧
    (∀ (input : List Str) (d : IniFile),
      (d.sections.map Section.name).Nodup →
      ∀ s ∈ d.sections, s.name ∉ mentionedNames input →
        (IniFile.load d input true).1.getSection s.name = some s) ∧
    (∀ (input : List Str) (d : IniFile), ∃ extra,
      (IniFile.load d input true).1.sections.map Section.name =
        d.sections.map Section.name ++ extra) ∧
    (∀ (d : IniFile) (n k v : Str), (']' : Char) ∉ n → KeyWF k → ValWF v →
      ∀ dflt,
        ((IniFile.load d ['[' :: n ++ [']'], k ++ '=' :: v]
            true).1.getSection n).map (fun t => t.get k dflt) = some v) := by
  refine ⟨fun input d₁ d₂ => rfl, ?_, ?_, ?_, ?_⟩
  · intro input d s hs
    have hx := processLines_names input ⟨[]⟩ none true s.name
      (List.mem_map.mpr ⟨s, hs, rfl⟩)
    rcases hx with hx | hx
    · simp at hx
    · exact hx
  · intro input d hnd s hs hm
    have hmem := processLines_preserves input d none true s hs hm
      (fun n hn => Option.noConfusion hn)
    have hndr := processLines_nodup_names input d none true hnd
    exact IniFile.getSection_of_nodup _ s hndr hmem
  · intro input d
    exact processLines_names_prefix input d none true
  · intro d n k v hn hk hv dflt
    show ((IniFile.processLines (d, none, true)
      ['[' :: n ++ [']'], k ++ '=' :: v]).1.getSection n).map
        (fun t => t.get k dflt) = some v
    rw [IniFile.processLines_cons, IniFile.loadStep_header d none true n hn,
      IniFile.processLines_cons,
      IniFile.loadStep_kv (d.getOrCreateSection n) n k v hk hv,
      IniFile.processLines_nil]
    show (IniFile.getSection ⟨IniFile.updateFirst (fun s => s.set k v) n
      (d.getOrCreateSection n).sections⟩ n).map (fun t => t.get k dflt) =
        some v
    rw [IniFile.getSection_updateFirst (fun s => s.set k v) n _
      (fun s => Section.set_name s k v)]
    obtain ⟨t, ht⟩ := IniFile.getSection_getOrCreateSection d n
    rw [ht]
    simp [section_get_set_self]

/-- C6 witness: loading a one-section, one-key source into the empty
document makes the key retrievable with its value. -/
theorem claim6_witness :
    ((IniFile.load ⟨[]⟩ [['[', 'A', ']'], ['k', '=', 'v']]
        true).1.getSection ['A']).map (fun t => t.get ['k'] ['d']) =
      some ['v'] :=
  claim6_loadFrame.2.2.2.2 ⟨[]⟩ ['A'] ['k'] ['v'] (by decide) (by decide)
    (by decide) ['d']

/-- C1, as stated, fails on the code: the document whose single section
`A` stores only the key `#x` (value `v`) satisfies the premise — a
non-empty keysOrder and no raw lines — but saving writes the bytes
`[A]\n#x=v\n\n`, whose line `#x=v` load reparses as a comment, so the
reloaded document's `getKeys` for `A` is empty rather than `[#x]`. The
statement composes save and load the way the program does: through the
written byte stream, re-split at line terminators by the loader. -/
theorem claim1_cex :
    (∀ s ∈ (IniFile.mk
        [⟨['A'], [['#', 'x']], [], [(['#', 'x'], ['v'])]⟩]).sections,
      s.keysOrder ≠ [] ∧ s.lines = []) ∧
    ¬ (IniFile.load ⟨[]⟩
        (IniFile.splitLines (IniFile.saveText
          ⟨[⟨['A'], [['#', 'x']], [], [(['#', 'x'], ['v'])]⟩]⟩))
        true).1.getKeys ['A'] = [['#', 'x']] := by
  decide

/-- C1 amended: for a document of key/value-only sections that also
satisfies the representation invariant and whose names, keys and values
are save-stable — pairwise distinct section names without `]` and
without line terminators, keys without whitespace or `=` not starting
with `[`, `#`, `$`, `+` or `*`, values without whitespace or quotes —
saving (as the written byte stream, re-split into physical lines by the
loader) and loading into a fresh document preserves every section's
getKeys sequence and every key's value as observed through get. -/
theorem claim1_roundtrip_amended (d : IniFile) (h : DocWF d) :
    ∀ s ∈ d.sections,
      (IniFile.load ⟨[]⟩ (IniFile.splitLines (IniFile.saveText d))
          true).1.getKeys s.name = s.keysOrder ∧
      ∀ k dflt,
        ((IniFile.load ⟨[]⟩ (IniFile.splitLines (IniFile.saveText d))
            true).1.getSection s.name).map (fun t => t.get k dflt) =
          some (s.get k dflt) := by
  intro s hs
  obtain ⟨hnd, hws⟩ := h
  rw [splitLines_saveText d ⟨hnd, hws⟩]
  have hres := load_save_eq d ⟨hnd, hws⟩
  have hndr : ((d.sections.map rebuilt).map Section.name).Nodup := by
    have hmm : (d.sections.map rebuilt).map Section.name =
        d.sections.map Section.name := by
      rw [List.map_map]
      rfl
    rw [hmm]
    exact hnd
  have hmem : rebuilt s ∈ d.sections.map rebuilt :=
    List.mem_map.mpr ⟨s, hs, rfl⟩
  have hget : (IniFile.mk (d.sections.map rebuilt)).getSection s.name =
      some (rebuilt s) :=
    IniFile.getSection_of_nodup (d.sections.map rebuilt) (rebuilt s)
      hndr hmem
  obtain ⟨hinv, -, -, -, -, -⟩ := hws s hs
  have hval : ∀ x, JsMap.get (rebuilt s).values x = JsMap.get s.values x := by
    intro x
    show JsMap.get (s.keysOrder.map (fun k =>
      (k, (JsMap.get s.values k).getD IniFile.undefinedStr))) x = _
    rw [get_map_pair]
    by_cases hx : x ∈ s.keysOrder
    · rw [if_pos hx]
      have hm : x ∈ s.values.map Prod.fst := (hinv.2.2 x).mpr hx
      obtain ⟨v, hv⟩ := Option.isSome_iff_exists.mp
        ((JsMap.isSome_get_iff _ _).mpr hm)
      rw [hv, Option.getD_some]
    · rw [if_neg hx]
      have hm : x ∉ s.values.map Prod.fst :=
        fun hc => hx ((hinv.2.2 x).mp hc)
      rw [(JsMap.get_eq_none_iff _ _).mpr hm]
  constructor
  · rw [hres]
    simp only [IniFile.getKeys, hget]
    rfl
  · intro k dflt
    rw [hres, hget]
    show some ((rebuilt s).get k dflt) = some (s.get k dflt)
    simp only [Section.get, hval k]

/-- C1 witness: a concrete well-formed one-key document round-trips
through the written byte stream. -/
theorem claim1_witness :
    (IniFile.load ⟨[]⟩
      (IniFile.splitLines (IniFile.saveText
        ⟨[⟨['A'], [['k']], [], [(['k'], ['v'])]⟩]⟩))
      true).1.getKeys ['A'] = [['k']] := by
  have hwf : DocWF ⟨[⟨['A'], [['k']], [], [(['k'], ['v'])]⟩]⟩ := by
    refine ⟨by decide, ?_⟩
    intro s hs
    have hseq : s = ⟨['A'], [['k']], [], [(['k'], ['v'])]⟩ := by
      simpa using hs
    subst hseq
    refine ⟨⟨by decide, by decide, fun k => by simp⟩, by decide, rfl,
      by decide, by decide, by decide, ?_, ?_⟩
    · intro k hk
      have hke : k = ['k'] := by simpa using hk
      subst hke
      decide
    · intro k v hv
      simp only [JsMap.get] at hv
      by_cases h2 : (['k'] : Str) = k
      · rw [if_pos h2] at hv
        have hveq : v = ['v'] := by
          injection hv with h3
          exact h3.symm
        subst hveq
        decide
      · rw [if_neg h2] at hv
        exact absurd hv (by simp)
  have h := claim1_roundtrip_amended _ hwf
    ⟨['A'], [['k']], [], [(['k'], ['v'])]⟩ (List.mem_singleton.mpr rfl)
  exact h.1

end Ini